import Mathlib

/-!
Verification of the chunked-narration / speech-synthesis pipeline of the
`twitter-audio` repository.  JavaScript strings are modelled as `List Char`;
the fallible external calls (OpenAI narration, trend summary, ElevenLabs
synthesis, ffmpeg, ffprobe) are modelled as oracle parameters returning
`Option`/`Except` values: a `none`/`error` result stands for a call whose
bounded retries (`retryAsync`) were exhausted, a `some`/`ok` result for the
eventual successful value.  The file system, where a claim is about file
effects, is modelled as an explicit state threaded through the functions.
-/

/-- Characters matched by the JavaScript regex class `\s`, restricted to the
ASCII whitespace characters this code base can actually produce. -/
def isSpaceChar (c : Char) : Bool :=
  c = ' ' || c = '\t' || c = '\n' || c = '\r' || c = '\x0b' || c = '\x0c'

/-- The subsequence of non-whitespace characters of a string. -/
def nws (l : List Char) : List Char := l.filter (fun c => !(isSpaceChar c))

/-- Convenience: the character list of a Lean string literal. -/
def lit (s : String) : List Char := s.data

/-- JavaScript `String.prototype.trim`: drop whitespace at both ends. -/
def jsTrim (l : List Char) : List Char :=
  ((l.dropWhile isSpaceChar).reverse.dropWhile isSpaceChar).reverse

/-- JavaScript `Array.prototype.join(sep)`. -/
def joinSep (sep : List Char) : List (List Char) → List Char
  | [] => []
  | [x] => x
  | x :: y :: rest => x ++ sep ++ joinSep sep (y :: rest)

/-- Decimal rendering of a natural number, as JavaScript template literals
render the integer counters interpolated into the script. -/
def natStr (n : Nat) : List Char := (Nat.repr n).data

/-- Splitting a list into consecutive pieces of `n` elements.  This is the
shape shared by the source's `substring(0, MAX)` while-loop (hard split of an
over-long sentence in `splitTextIntoChunks`) and the `slice(i, i + 5)` loop of
`splitContentsIntoChunks`; for `1 ≤ n` it coincides with both. -/
def chunksEvery {α : Type} (n : Nat) : List α → List (List α)
  | [] => []
  | c :: rest => ((c :: rest).take n) :: chunksEvery n (rest.drop (n - 1))
termination_by l => l.length
decreasing_by
  simp only [List.length_cons, List.length_drop]
  omega

/-- Model of `text.split(/\n{2,}/)` — split on maximal runs of at least two newlines;
`acc` holds the (reversed) piece currently being read. -/
def splitParasAux : List Char → List Char → List (List Char)
  | [], acc => [acc.reverse]
  | [c], acc => [(c :: acc).reverse]
  | c1 :: c2 :: rest, acc =>
      if c1 = '\n' && c2 = '\n' then
        acc.reverse :: splitParasAux (rest.dropWhile (fun c => c == '\n')) []
      else
        splitParasAux (c2 :: rest) (c1 :: acc)
termination_by l _ => l.length
decreasing_by
  · simp only [List.length_cons]
    have h : (rest.dropWhile (fun c => c == '\n')).length ≤ rest.length :=
      (List.dropWhile_sublist (fun c => c == '\n')).length_le
    omega
  · simp

/-- The paragraph split applied by `splitTextIntoChunks`. -/
def splitParagraphs (text : List Char) : List (List Char) := splitParasAux text []

/-- Does the list start with a whitespace character?  (Whether the regex
`(?<=[.!?])\s+` can match right after the punctuation just read.) -/
def startsWithSpace : List Char → Bool
  | [] => false
  | c :: _ => isSpaceChar c

/-- A sentence-ending punctuation mark of the lookbehind class `[.!?]`. -/
def isSentenceEnd (c : Char) : Bool := c = '.' || c = '!' || c = '?'

/-- Model of `paragraph.split(/(?<=[.!?])\s+/)` — split at maximal whitespace runs that
immediately follow `.`, `!` or `?`; the separator run is consumed. -/
def splitSentAux : List Char → List Char → List (List Char)
  | [], acc => [acc.reverse]
  | c :: rest, acc =>
      if isSentenceEnd c && startsWithSpace rest then
        (c :: acc).reverse :: splitSentAux (rest.dropWhile isSpaceChar) []
      else
        splitSentAux rest (c :: acc)
termination_by l _ => l.length
decreasing_by
  · simp only [List.length_cons]
    have h : (rest.dropWhile isSpaceChar).length ≤ rest.length :=
      (List.dropWhile_sublist isSpaceChar).length_le
    omega
  · simp

/-- The sentence split applied to a paragraph that alone exceeds the budget. -/
def splitSentences (p : List Char) : List (List Char) := splitSentAux p []

/-- The mutable state of the `splitTextIntoChunks` loop: the chunks pushed so
far and the running buffer `currentChunk`. -/
structure ChunkState where
  chunks : List (List Char)
  cur : List Char
deriving DecidableEq

/-- Model of `if (currentChunk) chunks.push(currentChunk)` — flush the running buffer
into the chunk list when it is non-empty. -/
def pushCur (st : ChunkState) : List (List Char) :=
  if st.cur.isEmpty then st.chunks else st.chunks ++ [st.cur]

/-- One iteration of the inner sentence loop of `splitTextIntoChunks`. -/
def addSentence (maxLen : Nat) (st : ChunkState) (s : List Char) : ChunkState :=
  if st.cur.length + s.length + 1 ≤ maxLen then
    { chunks := st.chunks
      cur := if st.cur.isEmpty then s else st.cur ++ ' ' :: s }
  else
    let chunks := pushCur st
    if maxLen < s.length then
      { chunks := chunks ++ chunksEvery maxLen s, cur := [] }
    else
      { chunks := chunks, cur := s }

/-- One iteration of the outer paragraph loop of `splitTextIntoChunks`. -/
def addParagraph (maxLen : Nat) (st : ChunkState) (p : List Char) : ChunkState :=
  if st.cur.length + p.length + 2 ≤ maxLen then
    { chunks := st.chunks
      cur := if st.cur.isEmpty then p else st.cur ++ '\n' :: '\n' :: p }
  else
    let chunks := pushCur st
    if maxLen < p.length then
      (splitSentences p).foldl (addSentence maxLen) { chunks := chunks, cur := [] }
    else
      { chunks := chunks, cur := p }

/-- The character budget of one ElevenLabs call (`MAX_TEXT_LENGTH`). -/
def MAX_TEXT_LENGTH : Nat := 4000

/-- The text chunker `splitTextIntoChunks` of the speech-synthesis module.
The source fixes the budget to the module constant `MAX_TEXT_LENGTH = 4000`;
the embedding takes the budget as the parameter `maxLen` (the spec requires
the chunker to be budget-parameterized) and the claims about the source
instantiate `maxLen := MAX_TEXT_LENGTH`. -/
def splitTextIntoChunks (maxLen : Nat) (text : List Char) : List (List Char) :=
  if text.length ≤ maxLen then [text]
  else
    pushCur ((splitParagraphs text).foldl (addParagraph maxLen) ⟨[], []⟩)

/-- The non-whitespace content carried by a chunker state: pushed chunks
followed by the running buffer. -/
def stNws (st : ChunkState) : List Char := nws st.chunks.flatten ++ nws st.cur

/-- Invariant of the chunker loop: all pushed chunks and the running buffer
respect the budget. -/
def BoundedSt (m : Nat) (st : ChunkState) : Prop :=
  (∀ c ∈ st.chunks, c.length ≤ m) ∧ st.cur.length ≤ m

/-- Invariant of the chunker loop: all pushed chunks are non-empty (the
running buffer may be empty). -/
def NonemptySt (st : ChunkState) : Prop := ∀ c ∈ st.chunks, c ≠ []

/-- The two primary categories of `ContentCategory` in `config/constants`. -/
inductive ContentCategory : Type
  | TECH : ContentCategory
  | OTHER : ContentCategory
deriving DecidableEq

/-- A summarized item as consumed by the grouping and narration code: its
primary category, its possibly-absent subcategory string (the TypeScript
field is optional), and its summary text. -/
structure SummarizedContent where
  category : ContentCategory
  subCategory : Option (List Char)
  summary : List Char
deriving DecidableEq

/-- Fallback subcategory for technical items (`TechSubCategory.OTHER_TECH`). -/
def OTHER_TECH : List Char := lit "OTHER_TECH"

/-- Fallback subcategory for general items (`OtherSubCategory.OTHER_GENERAL`). -/
def OTHER_GENERAL : List Char := lit "OTHER_GENERAL"

/-- JavaScript `content.subCategory || fallback`: an absent (or empty, hence
falsy) subcategory string is replaced by the category's fallback value. -/
def subCatOr (sc : Option (List Char)) (fallback : List Char) : List Char :=
  match sc with
  | none => fallback
  | some s => if s.isEmpty then fallback else s

/-- A JavaScript object used as a string-keyed map, modelled as an
insertion-ordered association list (JavaScript string keys enumerate in
insertion order). -/
abbrev Buckets : Type := List (List Char × List SummarizedContent)

/-- Model of `if (!m[k]) m[k] = []; m[k].push(v)` — append `v` to the bucket of `k`,
creating the bucket at the end of the map when it does not exist yet. -/
def insertItem (m : Buckets) (k : List Char) (v : SummarizedContent) : Buckets :=
  match m with
  | [] => [(k, [v])]
  | (k1, vs) :: rest =>
      if k1 = k then (k1, vs ++ [v]) :: rest else (k1, vs) :: insertItem rest k v

/-- Reading a bucket from the map (`m[k]`, empty when absent). -/
def bucketGet (m : Buckets) (k : List Char) : List SummarizedContent :=
  match m with
  | [] => []
  | (k1, vs) :: rest => if k1 = k then vs else bucketGet rest k

/-- All items of a bucket map, in bucket order (`Object.values(m).flat()`). -/
def allItems (m : Buckets) : List SummarizedContent :=
  (m.map (fun e => e.2)).flatten

/-- The result shape of `groupContentsByCategory`. -/
structure GroupedContents where
  tech : Buckets
  other : Buckets

/-- The grouping key the code computes for an item, given the fallback of its
primary category. -/
def groupKey (c : SummarizedContent) : List Char :=
  match c.category with
  | ContentCategory.TECH => subCatOr c.subCategory OTHER_TECH
  | ContentCategory.OTHER => subCatOr c.subCategory OTHER_GENERAL

/-- Model of `groupContentsByCategory` of `index.ts`: partition the items into TECH
and OTHER by `filter`, then group each part by (fallback-completed)
subcategory into a fresh object. -/
def groupContentsByCategory (contents : List SummarizedContent) : GroupedContents :=
  let techContents := contents.filter (fun c => c.category = ContentCategory.TECH)
  let otherContents := contents.filter (fun c => c.category = ContentCategory.OTHER)
  { tech := techContents.foldl
      (fun m c => insertItem m (subCatOr c.subCategory OTHER_TECH) c) []
    other := otherContents.foldl
      (fun m c => insertItem m (subCatOr c.subCategory OTHER_GENERAL) c) [] }

/-- Oracle for one `processContentChunk` call of `classifier.ts`: from the
chunk's items, the category name and the is-first-chunk flag to the eventual
response text, or `none` when both retries of the OpenAI call failed. -/
def NarrOracle : Type :=
  List SummarizedContent → List Char → Bool → Option (List Char)

/-- Model of `splitContentsIntoChunks`: fixed-size item chunks of five
(`contents.slice(i, i + 5)` for `i = 0, 5, 10, …`). -/
def splitContentsIntoChunks (contents : List SummarizedContent) :
    List (List SummarizedContent) := chunksEvery 5 contents

/-- The fixed fallback sentence pushed for a chunk whose narration call
failed. -/
def chunkFallback : List Char := lit "このセクションのコンテンツは処理できませんでした。"

/-- Model of `generateCombinedSection`: narrate each five-item chunk in order (the
catch substitutes the fallback sentence for a failed chunk and continues),
then join the per-chunk results with a blank line. -/
def generateCombinedSection (narr : NarrOracle) (contents : List SummarizedContent)
    (categoryName : List Char) : List Char :=
  joinSep (lit "\n\n")
    ((splitContentsIntoChunks contents).enum.map (fun ic =>
      match narr ic.2 categoryName (ic.1 == 0) with
      | some t => jsTrim t
      | none => chunkFallback))

/-- Stable insertion of a bucket entry into an entry list ordered by
descending item count: the entry moves left past exactly the entries with a
strictly smaller count, so entries with equal counts keep their original
relative order — the behaviour of the stable `sort((a, b) => countB -
countA)` of the subcategory count table. -/
def insertByCountDesc (e : List Char × List SummarizedContent) :
    Buckets → Buckets
  | [] => [e]
  | f :: rest =>
      if f.2.length < e.2.length then e :: f :: rest
      else f :: insertByCountDesc e rest

/-- The descending-count stable sort of the bucket entries, the order in
which `createPodcastScript` visits a primary category's subcategories. -/
def sortByCountDesc : Buckets → Buckets
  | [] => []
  | e :: rest => insertByCountDesc e (sortByCountDesc rest)

/-- The skip condition of the subcategory loop: at most two items and more
than one subcategory (`contents.length <= 2 && sorted.length > 1`). -/
def isSmallIn (n : Nat) (e : List Char × List SummarizedContent) : Bool :=
  e.2.length ≤ 2 && 1 < n

/-- The narration plan `createPodcastScript` produces for one primary
category: the subcategory buckets narrated individually, in visit order, and
the optional single merged bucket of the skipped small subcategories. -/
structure SectionPlan where
  individual : Buckets
  merged : Option (List SummarizedContent)
deriving DecidableEq

/-- The section plan of one primary category in `createPodcastScript`: sort
the subcategory entries by descending count; narrate individually those not
skipped by the small-bucket condition; collect the items of the skipped
entries and narrate them once, if there are skipped entries with items. -/
def categorySections (m : Buckets) : SectionPlan :=
  let sorted := sortByCountDesc m
  let indiv := sorted.filter (fun e => !(isSmallIn sorted.length e))
  let small := sorted.filter (fun e => isSmallIn sorted.length e)
  let combined := (small.map (fun e => e.2)).flatten
  { individual := indiv
    merged :=
      match small with
      | [] => none
      | _ => if combined.isEmpty then none else some combined }

/-- The `SubCategoryNames` display-name table of `config/constants`. -/
def SubCategoryNames : List (List Char × List Char) := [
  (lit "PROGRAMMING_LANGUAGE", lit "プログラミング言語"),
  (lit "FRAMEWORK", lit "フレームワーク"),
  (lit "AI_ML", lit "AI・機械学習"),
  (lit "TOOLS", lit "開発ツール"),
  (lit "WEB_DEV", lit "Web開発"),
  (lit "OTHER_TECH", lit "その他技術トピック"),
  (lit "NEWS", lit "ニュース"),
  (lit "ENTERTAINMENT", lit "エンターテイメント"),
  (lit "LIFESTYLE", lit "ライフスタイル"),
  (lit "HOBBY", lit "趣味"),
  (lit "OTHER_GENERAL", lit "その他の話題")]

/-- Association-list lookup for the display-name table. -/
def assocName : List (List Char × List Char) → List Char → Option (List Char)
  | [], _ => none
  | (k1, v) :: rest, k => if k1 = k then some v else assocName rest k

/-- Model of `SubCategoryNames[subCat] || fallback`. -/
def subCatNameOr (k fallback : List Char) : List Char :=
  match assocName SubCategoryNames k with
  | none => fallback
  | some v => if v.isEmpty then fallback else v

/-- One narrated section, as appended to the per-category script string:
heading, post-processed combined narration, blank line. -/
def sectionBlock (narr : NarrOracle) (post : List Char → List Char)
    (intro : List Char) (contents : List SummarizedContent)
    (catName : List Char) : List Char :=
  intro ++ post (generateCombinedSection narr contents catName) ++ lit "\n\n"

/-- The per-category script accumulation of `createPodcastScript` (the two
symmetric loops over tech and other subcategories): individually narrated
sections in plan order, then the merged small-bucket section if present.
`post` abstracts the pure text clean-up `postProcessText` (a regex rewriting
pass whose output is irrelevant to the claims proved here); `nameOf` and
`introOf` build the display name and the section heading, and `mergedIntro`/
`mergedName` are the fixed heading and category name of the merged
section. -/
def buildCategoryScript (narr : NarrOracle) (post : List Char → List Char)
    (m : Buckets) (nameOf : List Char → List Char)
    (introOf : List Char → List Char)
    (mergedIntro mergedName : List Char) : List Char :=
  let plan := categorySections m
  ((plan.individual.map (fun e =>
      sectionBlock narr post (introOf (nameOf e.1)) e.2 (nameOf e.1))).flatten)
  ++ (match plan.merged with
      | none => []
      | some l => sectionBlock narr post mergedIntro l mergedName)

/-- Total item count of a primary category (`techCount`/`otherCount`). -/
def sumCounts (m : Buckets) : Nat := (m.map (fun e => e.2.length)).sum

/-- Model of `generateStatisticalSummary`: empty when there are no items at all;
otherwise the trimmed trend-call response wrapped in blank lines, or, when
the call failed, the deterministic count sentence.  The `stat` oracle is the
eventual result of the OpenAI trend call. -/
def generateStatisticalSummary (stat : Option (List Char))
    (techContents otherContents : List SummarizedContent) : List Char :=
  if techContents.length = 0 ∧ otherContents.length = 0 then []
  else
    match stat with
    | some response => lit "\n\n" ++ jsTrim response ++ lit "\n\n"
    | none =>
        lit "\n\n今週は技術系のツイートを" ++ natStr techContents.length ++
        lit "件お気に入りし、それ以外の分野では" ++ natStr otherContents.length ++
        lit "件のお気に入りをしました。\n\n"

/-- The fixed opening boilerplate of `createPodcastScript`. -/
def openingScript : List Char :=
  lit "はい！ムツミックスの最初はグッド トゥー ミイ！\n\nこの番組はいけぶくろにせいそくするエンジニア、ムツミックスがツイッターで今週お気に入りをつけたツイートを、AIがかってにまとめて分析して紹介するというポッドキャスト番組です。\nこれを読み上げている私もAIです。\nこんな時代ですが、最後までお聞きいただけるとハッピーです。まあ私AIなんで感情ありませんけど。\nそれでは早速紹介していきます。\n\n"

/-- The fixed closing boilerplate of `createPodcastScript`. -/
def conclusionScript : List Char :=
  lit "ムツミックスの最初はグッド トゥウ ミイ！、今週は以上です。\nいかがでしたでしょうか。まあ、私AIなんであなたがどう思おうとどうだっていいんですけど。\nそれではまた来週お耳にかかりましょう。バイちゃ！"

/-- The `techSection` string of `createPodcastScript`: empty when the
category has no items, otherwise count line, accumulated tech script, blank
line. -/
def techSectionOf (narr : NarrOracle) (post : List Char → List Char)
    (g : GroupedContents) : List Char :=
  if 0 < sumCounts g.tech then
    lit "今週の技術系の話題は" ++ natStr (sumCounts g.tech) ++
      lit "件ありました。\n\n" ++
      buildCategoryScript narr post g.tech
        (fun k => subCatNameOr k (lit "その他技術トピック"))
        (fun name => lit "\n## " ++ name ++ lit "に関する話題\n\n")
        (lit "\n## その他の技術トピック\n\n") (lit "その他技術トピック") ++
      lit "\n\n"
  else []

/-- The `otherSection` string of `createPodcastScript`: empty when the
category has no items, otherwise count line, accumulated other script, blank
line. -/
def otherSectionOf (narr : NarrOracle) (post : List Char → List Char)
    (g : GroupedContents) : List Char :=
  if 0 < sumCounts g.other then
    lit "続いて、その他の話題を" ++ natStr (sumCounts g.other) ++
      lit "件紹介します。\n\n" ++
      buildCategoryScript narr post g.other
        (fun k => subCatNameOr k (lit "その他の話題"))
        (fun name => lit "\n## " ++ name ++ lit "\n\n")
        (lit "\n## その他の話題\n\n") (lit "その他の話題") ++
      lit "\n\n"
  else []

/-- Model of `createPodcastScript` of `classifier.ts`: fixed opening, tech section,
other section, statistical summary, fixed closing.  All the generation
callees of the try block (`generateCombinedSection`,
`generateStatisticalSummary`) are total in this model — each absorbs the
failure of its OpenAI call into a deterministic fallback — so the outer
catch (which would return the short error script) is unreachable and the
embedding is the try branch. -/
def createPodcastScript (narr : NarrOracle) (stat : Option (List Char))
    (post : List Char → List Char) (g : GroupedContents) : List Char :=
  openingScript ++ techSectionOf narr post g ++ otherSectionOf narr post g ++
    generateStatisticalSummary stat (allItems g.tech) (allItems g.other) ++
    conclusionScript

/-- A concrete six-item bucket (two chunks of five and one items) and a
narration oracle that fails exactly on the first chunk. -/
def itemW : SummarizedContent := ⟨ContentCategory.TECH, none, lit "m"⟩

/-- The six-item bucket for the C6 witness. -/
def itemsW : List SummarizedContent := [itemW, itemW, itemW, itemW, itemW, itemW]

/-- The narration oracle for the C6 witness: retries exhausted on the first
chunk, success on all later chunks. -/
def narrW : NarrOracle :=
  fun _ _ first => if first then none else some (lit " まとめ ")

/-- The file-system state the synthesis driver manipulates: the existing
paths, in creation order. -/
structure FsState where
  files : List (List Char)
deriving DecidableEq

/-- Model of `fs.writeFileSync(p, …)` — the path now exists. -/
def writeFile (fs : FsState) (p : List Char) : FsState := ⟨fs.files ++ [p]⟩

/-- Model of `fs.unlinkSync(p)` (best-effort in the source: a deletion failure is
caught and only logged, so the model lets deletion succeed). -/
def unlinkFile (fs : FsState) (p : List Char) : FsState := ⟨fs.files.erase p⟩

/-- The path `temp_chunk_i_basename(outputPath)` — the index-suffixed temp
artifact path of chunk `i`. -/
def tempChunkPath (i : Nat) (base : List Char) : List Char :=
  lit "temp_chunk_" ++ natStr i ++ lit "_" ++ base

/-- The per-chunk loop of the chunked path of
`synthesizeSpeechWithElevenLabs`: for each chunk in order, `processChunk`
(the retry-wrapped ElevenLabs call plus `writeFileSync`) writes the temp
artifact, whose path is collected; the first chunk whose retries are
exhausted (`synthOk i = false`) throws out of the loop, leaving every
already-written temp file in place.  The chunk texts are not inspected by
the driver, only their count. -/
def runChunks (synthOk : Nat → Bool) (base : List Char) :
    Nat → List (List Char) → FsState →
      Except Unit (List (List Char)) × FsState
  | _, [], fs => (Except.ok [], fs)
  | i, _ :: rest, fs =>
      if synthOk i then
        match runChunks synthOk base (i + 1) rest (writeFile fs (tempChunkPath i base)) with
        | (Except.ok ps, fs3) => (Except.ok (tempChunkPath i base :: ps), fs3)
        | (Except.error e, fs3) => (Except.error e, fs3)
      else (Except.error (), fs)

/-- The chunked path of `synthesizeSpeechWithElevenLabs` (taken when the
script exceeds `MAX_TEXT_LENGTH`): synthesize every chunk to its temp path,
merge the temp artifacts into `out` (`mergeOk` is the ffmpeg outcome, whose
failure is logged and rethrown), and only after a successful merge unlink
the temp artifacts one by one; a chunk failure or a merge failure propagates
immediately — the source has no catch/finally that would delete the temp
files on those paths. -/
def synthesizeChunked (synthOk : Nat → Bool) (mergeOk : Bool)
    (base : List Char) (chunks : List (List Char)) (out : List Char)
    (fs : FsState) : Except Unit (List Char) × FsState :=
  match runChunks synthOk base 0 chunks fs with
  | (Except.error e, fs2) => (Except.error e, fs2)
  | (Except.ok temps, fs2) =>
      if mergeOk then
        (Except.ok out, temps.foldl unlinkFile (writeFile fs2 out))
      else (Except.error (), fs2)

/-- Model of `synthesizeSpeechWithElevenLabs` (file-effect skeleton): empty trimmed
text throws before any file operation; text within `MAX_TEXT_LENGTH` is one
direct `processChunk` call writing `out`; longer text takes the chunked path
over `splitTextIntoChunks`. -/
def synthesizeSpeechWithElevenLabs (synthOk : Nat → Bool) (mergeOk : Bool)
    (text : List Char) (base out : List Char) (fs : FsState) :
    Except Unit (List Char) × FsState :=
  if (jsTrim text).isEmpty then (Except.error (), fs)
  else if text.length ≤ MAX_TEXT_LENGTH then
    if synthOk 0 then (Except.ok out, writeFile fs out)
    else (Except.error (), fs)
  else
    synthesizeChunked synthOk mergeOk base
      (splitTextIntoChunks MAX_TEXT_LENGTH text) out fs

/-- A path-to-bytes map modelling the audio files visible to
`mergeAudioFiles` of `audio-utils.ts`. -/
abbrev FileMap : Type := List (List Char × List Nat)

/-- Reading a file's bytes (`none`: the path does not exist). -/
def readBytes (fs : FileMap) (p : List Char) : Option (List Nat) :=
  match fs with
  | [] => none
  | (q, v) :: rest => if q = p then some v else readBytes rest p

/-- Writing a file's bytes, overwriting an existing path. -/
def writeBytes (fs : FileMap) (p : List Char) (v : List Nat) : FileMap :=
  match fs with
  | [] => [(p, v)]
  | (q, w) :: rest => if q = p then (q, v) :: rest else (q, w) :: writeBytes rest p v

/-- The failure modes of `mergeAudioFiles`. -/
inductive MergeError : Type
  | noInput : MergeError
  | copyFailed : MergeError
  | ffmpegFailed : MergeError
deriving DecidableEq

/-- Model of `mergeAudioFiles` of `audio-utils.ts`: at most one input is handled
before any other file operation — exactly one input is `copyFileSync`ed to
the output path (no re-encoding) and returned, zero inputs throw the
no-input error; two or more inputs delegate to silence generation and the
fluent-ffmpeg merge, abstracted by the `ffmpeg` oracle (`none`: the merge
promise rejected, and the error is rethrown). -/
def mergeAudioFiles (ffmpeg : List (List Char) → Option (List Nat))
    (audioFilePaths : List (List Char)) (outputFilePath : List Char)
    (fs : FileMap) : Except MergeError (List Char) × FileMap :=
  if audioFilePaths.length ≤ 1 then
    match audioFilePaths with
    | [p] =>
        match readBytes fs p with
        | some v => (Except.ok outputFilePath, writeBytes fs outputFilePath v)
        | none => (Except.error MergeError.copyFailed, fs)
    | _ => (Except.error MergeError.noInput, fs)
  else
    match ffmpeg audioFilePaths with
    | some v => (Except.ok outputFilePath, writeBytes fs outputFilePath v)
    | none => (Except.error MergeError.ffmpegFailed, fs)

/-- A JavaScript number as produced by `parseFloat`: NaN or a rational
value. -/
inductive JsNum : Type
  | nan : JsNum
  | val : ℚ → JsNum
deriving DecidableEq

/-- An ASCII decimal digit. -/
def isDigitChar (c : Char) : Bool := '0' ≤ c && c ≤ '9'

/-- Numeric value of a decimal digit character. -/
def digitVal (c : Char) : Nat := c.toNat - '0'.toNat

/-- Decimal value of a digit string. -/
def digitsVal (l : List Char) : Nat :=
  l.foldl (fun a c => a * 10 + digitVal c) 0

/-- JavaScript `parseFloat`, modelled on the decimal grammar ffprobe output
can exhibit: optional sign, integer digits, optional `.` and fraction
digits, ignoring any trailing garbage; NaN when no digit is found at the
front (exponents, `Infinity` and non-ASCII digits are outside the modelled
subset). -/
def parseFloat (s : List Char) : JsNum :=
  let signRest : ℚ × List Char :=
    match s with
    | '-' :: r => (-1, r)
    | '+' :: r => (1, r)
    | r => (1, r)
  let intDigits := signRest.2.takeWhile isDigitChar
  let rest2 := signRest.2.dropWhile isDigitChar
  let fracDigits :=
    match rest2 with
    | '.' :: r2 => r2.takeWhile isDigitChar
    | _ => []
  if intDigits.isEmpty && fracDigits.isEmpty then JsNum.nan
  else
    JsNum.val (signRest.1 * ((digitsVal intDigits : ℚ) +
      (digitsVal fracDigits : ℚ) / (10 : ℚ) ^ fracDigits.length))

/-- Model of `getAudioDuration` of the speech-synthesis module: the `probe` oracle is
the `execSync` ffprobe invocation — `error` when the command fails (the
catch logs and returns 0), `ok output` its stdout, whose trimmed text is
handed to `parseFloat`.  The function is total: it never throws. -/
def getAudioDuration (probe : Except Unit (List Char)) : JsNum :=
  match probe with
  | Except.error _ => JsNum.val 0
  | Except.ok output => parseFloat (jsTrim output)

example : splitTextIntoChunks 4 (lit "ab") = [lit "ab"] := by decide

example : splitTextIntoChunks 4 (lit "abc de") = [lit "abc ", lit "de"] := by
  simp [splitTextIntoChunks, splitParagraphs, splitParasAux, addParagraph, addSentence,
    splitSentences, splitSentAux, pushCur, chunksEvery, lit, isSpaceChar, isSentenceEnd,
    startsWithSpace]

example : splitTextIntoChunks 3 (lit "abcdefgh") = [lit "abc", lit "def", lit "gh"] := by
  simp [splitTextIntoChunks, splitParagraphs, splitParasAux, addParagraph, addSentence,
    splitSentences, splitSentAux, pushCur, chunksEvery, lit, isSpaceChar, isSentenceEnd,
    startsWithSpace]

example : splitTextIntoChunks 4000 [] = [[]] := by decide

theorem nws_cons (c : Char) (l : List Char) :
    nws (c :: l) = if isSpaceChar c then nws l else c :: nws l := by
  simp only [nws, List.filter_cons]
  cases h : isSpaceChar c <;> simp [h]

theorem nws_append (a b : List Char) : nws (a ++ b) = nws a ++ nws b := by
  simp [nws, List.filter_append]

theorem nws_dropWhile (p : Char → Bool) (hp : ∀ c, p c = true → isSpaceChar c = true) :
    ∀ l : List Char, nws (l.dropWhile p) = nws l := by
  intro l
  induction l with
  | nil => rfl
  | cons c rest ih =>
    rw [List.dropWhile_cons]
    by_cases h : p c = true
    · rw [if_pos h, ih, nws_cons, if_pos (hp c h)]
    · rw [if_neg h]

theorem nws_splitParasAux : ∀ (s acc : List Char),
    ((splitParasAux s acc).map nws).flatten = nws acc.reverse ++ nws s := by
  intro s acc
  induction s, acc using splitParasAux.induct with
  | case1 acc => simp [splitParasAux, nws]
  | case2 c acc => simp [splitParasAux, nws]
  | case3 c1 c2 rest acc h ih =>
    rw [splitParasAux, if_pos h]
    simp only [List.map_cons, List.flatten_cons, ih]
    rw [nws_dropWhile (fun c => c == '\n') (by intro c hc; simp at hc; simp [hc, isSpaceChar])]
    simp only [Bool.and_eq_true, decide_eq_true_eq] at h
    simp [nws_cons, h.1, h.2, isSpaceChar, nws]
  | case4 c1 c2 rest acc h ih =>
    rw [splitParasAux, if_neg h, ih]
    rw [List.reverse_cons, nws_append, nws_cons c1 [], nws_cons c1 (c2 :: rest)]
    by_cases hc : isSpaceChar c1 = true <;> simp [hc, nws]

theorem nws_splitParagraphs (s : List Char) :
    ((splitParagraphs s).map nws).flatten = nws s := by
  rw [splitParagraphs, nws_splitParasAux]
  simp [nws]

theorem nws_splitSentAux : ∀ (s acc : List Char),
    ((splitSentAux s acc).map nws).flatten = nws acc.reverse ++ nws s := by
  intro s acc
  induction s, acc using splitSentAux.induct with
  | case1 acc => simp [splitSentAux, nws]
  | case2 c rest acc h ih =>
    rw [splitSentAux, if_pos h]
    simp only [List.map_cons, List.flatten_cons, ih]
    rw [nws_dropWhile isSpaceChar (by intro c hc; exact hc)]
    rw [List.reverse_cons, nws_append, nws_cons c [], nws_cons c rest]
    by_cases hc : isSpaceChar c = true <;> simp [hc, nws]
  | case3 c rest acc h ih =>
    rw [splitSentAux, if_neg h, ih]
    rw [List.reverse_cons, nws_append, nws_cons c [], nws_cons c rest]
    by_cases hc : isSpaceChar c = true <;> simp [hc, nws]

theorem nws_splitSentences (p : List Char) :
    ((splitSentences p).map nws).flatten = nws p := by
  rw [splitSentences, nws_splitSentAux]
  simp [nws]

theorem chunksEvery_flatten {α : Type} (n : Nat) (hn : 1 ≤ n) :
    ∀ l : List α, (chunksEvery n l).flatten = l := by
  intro l
  induction l using chunksEvery.induct n with
  | case1 => simp [chunksEvery]
  | case2 c rest ih =>
    rw [chunksEvery]
    simp only [List.flatten_cons, ih]
    have h1 : (c :: rest).drop n = rest.drop (n - 1) := by
      cases n with
      | zero => omega
      | succ m => simp
    rw [← h1, List.take_append_drop]

theorem chunksEvery_length_le {α : Type} (n : Nat) :
    ∀ l : List α, ∀ p ∈ chunksEvery n l, p.length ≤ n := by
  intro l
  induction l using chunksEvery.induct n with
  | case1 => simp [chunksEvery]
  | case2 c rest ih =>
    intro p hp
    rw [chunksEvery] at hp
    rcases List.mem_cons.mp hp with h | h
    · subst h
      simp [List.length_take]
    · exact ih p h

theorem chunksEvery_ne_nil {α : Type} (n : Nat) (hn : 1 ≤ n) :
    ∀ l : List α, ∀ p ∈ chunksEvery n l, p ≠ [] := by
  intro l
  induction l using chunksEvery.induct n with
  | case1 => simp [chunksEvery]
  | case2 c rest ih =>
    intro p hp
    rw [chunksEvery] at hp
    rcases List.mem_cons.mp hp with h | h
    · subst h
      cases n with
      | zero => omega
      | succ m => simp
    · exact ih p h

theorem pushCur_flatten (st : ChunkState) :
    (pushCur st).flatten = st.chunks.flatten ++ st.cur := by
  rw [pushCur]
  by_cases h : st.cur.isEmpty
  · rw [if_pos h]
    rw [List.isEmpty_iff] at h
    simp [h]
  · rw [if_neg h]
    simp

theorem addSentence_stNws (m : Nat) (hm : 1 ≤ m) (st : ChunkState) (s : List Char) :
    stNws (addSentence m st s) = stNws st ++ nws s := by
  rw [addSentence]
  by_cases h1 : st.cur.length + s.length + 1 ≤ m
  · rw [if_pos h1]
    by_cases h2 : st.cur.isEmpty
    · rw [List.isEmpty_iff] at h2
      simp [stNws, h2, nws]
    · rw [if_neg h2]
      simp [stNws, nws_append, nws_cons, isSpaceChar]
  · rw [if_neg h1]
    by_cases h3 : m < s.length
    · rw [if_pos h3]
      simp only [stNws, List.flatten_append, pushCur_flatten,
        chunksEvery_flatten m hm, nws_append, nws]
      simp
    · rw [if_neg h3]
      simp [stNws, pushCur_flatten, nws_append]

theorem stNws_foldl {α : Type} (f : ChunkState → α → ChunkState) (g : α → List Char)
    (hf : ∀ st x, stNws (f st x) = stNws st ++ g x) :
    ∀ (L : List α) (st : ChunkState),
      stNws (L.foldl f st) = stNws st ++ (L.map g).flatten := by
  intro L
  induction L with
  | nil => simp
  | cons x rest ih =>
    intro st
    rw [List.foldl_cons, ih, hf]
    simp

theorem addParagraph_stNws (m : Nat) (hm : 1 ≤ m) (st : ChunkState) (p : List Char) :
    stNws (addParagraph m st p) = stNws st ++ nws p := by
  rw [addParagraph]
  by_cases h1 : st.cur.length + p.length + 2 ≤ m
  · rw [if_pos h1]
    by_cases h2 : st.cur.isEmpty
    · rw [if_pos h2]
      rw [List.isEmpty_iff] at h2
      simp [stNws, h2, nws]
    · rw [if_neg h2]
      simp [stNws, nws_append, nws_cons, isSpaceChar]
  · rw [if_neg h1]
    by_cases h3 : m < p.length
    · rw [if_pos h3]
      rw [stNws_foldl (addSentence m) nws (fun st s => addSentence_stNws m hm st s)]
      rw [nws_splitSentences]
      simp [stNws, pushCur_flatten, nws_append, nws]
    · rw [if_neg h3]
      simp [stNws, pushCur_flatten, nws_append]

/-- Claim C2 (general form): for every budget of at least one character and
every input string, the chunks of `splitTextIntoChunks` concatenated in order
carry exactly the non-whitespace characters of the input, in order: the
splits discard only whitespace separators and the joins insert only
whitespace separators. -/
theorem splitTextIntoChunks_reconstructs (maxLen : Nat) (hm : 1 ≤ maxLen)
    (s : List Char) :
    nws (splitTextIntoChunks maxLen s).flatten = nws s := by
  rw [splitTextIntoChunks]
  by_cases h : s.length ≤ maxLen
  · rw [if_pos h]
    simp
  · rw [if_neg h]
    have h1 : nws (pushCur ((splitParagraphs s).foldl (addParagraph maxLen) ⟨[], []⟩)).flatten
        = stNws ((splitParagraphs s).foldl (addParagraph maxLen) ⟨[], []⟩) := by
      rw [pushCur_flatten, stNws, nws_append]
    rw [h1, stNws_foldl (addParagraph maxLen) nws
      (fun st p => addParagraph_stNws maxLen hm st p)]
    rw [nws_splitParagraphs]
    simp [stNws, nws]

theorem pushCur_bounded (m : Nat) (st : ChunkState) (h : BoundedSt m st) :
    ∀ c ∈ pushCur st, c.length ≤ m := by
  intro c hc
  rw [pushCur] at hc
  by_cases he : st.cur.isEmpty
  · rw [if_pos he] at hc
    exact h.1 c hc
  · rw [if_neg he] at hc
    rcases List.mem_append.mp hc with h1 | h1
    · exact h.1 c h1
    · rw [List.mem_singleton] at h1
      subst h1
      exact h.2

theorem pushCur_nonempty (st : ChunkState) (h : NonemptySt st) :
    ∀ c ∈ pushCur st, c ≠ [] := by
  intro c hc
  rw [pushCur] at hc
  by_cases he : st.cur.isEmpty
  · rw [if_pos he] at hc
    exact h c hc
  · rw [if_neg he] at hc
    rcases List.mem_append.mp hc with h1 | h1
    · exact h c h1
    · rw [List.mem_singleton] at h1
      subst h1
      intro hnil
      rw [hnil] at he
      exact he rfl

theorem addSentence_bounded (m : Nat) (st : ChunkState) (s : List Char)
    (h : BoundedSt m st) : BoundedSt m (addSentence m st s) := by
  rw [addSentence]
  by_cases h1 : st.cur.length + s.length + 1 ≤ m
  · rw [if_pos h1]
    refine ⟨h.1, ?_⟩
    by_cases h2 : st.cur.isEmpty
    · rw [if_pos h2]
      show s.length ≤ m
      omega
    · rw [if_neg h2]
      show (st.cur ++ ' ' :: s).length ≤ m
      simp only [List.length_append, List.length_cons]
      omega
  · rw [if_neg h1]
    by_cases h3 : m < s.length
    · rw [if_pos h3]
      refine ⟨?_, by simp⟩
      intro c hc
      rcases List.mem_append.mp hc with h4 | h4
      · exact pushCur_bounded m st h c h4
      · exact chunksEvery_length_le m s c h4
    · rw [if_neg h3]
      exact ⟨pushCur_bounded m st h, by show s.length ≤ m; omega⟩

theorem addSentence_nonempty (m : Nat) (hm : 1 ≤ m) (st : ChunkState) (s : List Char)
    (h : NonemptySt st) : NonemptySt (addSentence m st s) := by
  rw [addSentence]
  by_cases h1 : st.cur.length + s.length + 1 ≤ m
  · rw [if_pos h1]
    exact h
  · rw [if_neg h1]
    by_cases h3 : m < s.length
    · rw [if_pos h3]
      intro c hc
      rcases List.mem_append.mp hc with h4 | h4
      · exact pushCur_nonempty st h c h4
      · exact chunksEvery_ne_nil m hm s c h4
    · rw [if_neg h3]
      exact pushCur_nonempty st h

theorem foldl_pred {α β : Type} (P : β → Prop) (f : β → α → β)
    (hf : ∀ st x, P st → P (f st x)) :
    ∀ (L : List α) (st : β), P st → P (L.foldl f st) := by
  intro L
  induction L with
  | nil => intro st h; exact h
  | cons x rest ih =>
    intro st h
    rw [List.foldl_cons]
    exact ih (f st x) (hf st x h)

theorem addParagraph_bounded (m : Nat) (st : ChunkState) (p : List Char)
    (h : BoundedSt m st) : BoundedSt m (addParagraph m st p) := by
  rw [addParagraph]
  by_cases h1 : st.cur.length + p.length + 2 ≤ m
  · rw [if_pos h1]
    refine ⟨h.1, ?_⟩
    by_cases h2 : st.cur.isEmpty
    · rw [if_pos h2]
      show p.length ≤ m
      omega
    · rw [if_neg h2]
      show (st.cur ++ '\n' :: '\n' :: p).length ≤ m
      simp only [List.length_append, List.length_cons]
      omega
  · rw [if_neg h1]
    by_cases h3 : m < p.length
    · rw [if_pos h3]
      exact foldl_pred (BoundedSt m) (addSentence m)
        (fun st s hs => addSentence_bounded m st s hs) (splitSentences p)
        ⟨pushCur st, []⟩ ⟨pushCur_bounded m st h, by simp⟩
    · rw [if_neg h3]
      exact ⟨pushCur_bounded m st h, by show p.length ≤ m; omega⟩

theorem addParagraph_nonempty (m : Nat) (hm : 1 ≤ m) (st : ChunkState) (p : List Char)
    (h : NonemptySt st) : NonemptySt (addParagraph m st p) := by
  rw [addParagraph]
  by_cases h1 : st.cur.length + p.length + 2 ≤ m
  · rw [if_pos h1]
    exact h
  · rw [if_neg h1]
    by_cases h3 : m < p.length
    · rw [if_pos h3]
      exact foldl_pred NonemptySt (addSentence m)
        (fun st s hs => addSentence_nonempty m hm st s hs) (splitSentences p)
        ⟨pushCur st, []⟩ (pushCur_nonempty st h)
    · rw [if_neg h3]
      exact pushCur_nonempty st h

/-- Claim C1 (amended): every chunk returned by `splitTextIntoChunks` under
the `MAX_TEXT_LENGTH = 4000` budget has length at most the budget, and —
provided the input string is non-empty — every chunk is non-empty.  (On the
empty input the function returns `[""]`, see the counterexample.) -/
theorem splitTextIntoChunks_bounded_nonempty (s : List Char) (hs : s ≠ []) :
    (∀ c ∈ splitTextIntoChunks MAX_TEXT_LENGTH s, c.length ≤ MAX_TEXT_LENGTH) ∧
    (∀ c ∈ splitTextIntoChunks MAX_TEXT_LENGTH s, c ≠ []) := by
  rw [splitTextIntoChunks]
  by_cases h : s.length ≤ MAX_TEXT_LENGTH
  · rw [if_pos h]
    constructor
    · intro c hc
      rw [List.mem_singleton] at hc
      subst hc
      exact h
    · intro c hc
      rw [List.mem_singleton] at hc
      subst hc
      exact hs
  · rw [if_neg h]
    have hm : 1 ≤ MAX_TEXT_LENGTH := by rw [MAX_TEXT_LENGTH]; omega
    have hb : BoundedSt MAX_TEXT_LENGTH
        ((splitParagraphs s).foldl (addParagraph MAX_TEXT_LENGTH) ⟨[], []⟩) :=
      foldl_pred (BoundedSt MAX_TEXT_LENGTH) (addParagraph MAX_TEXT_LENGTH)
        (fun st p hp => addParagraph_bounded MAX_TEXT_LENGTH st p hp)
        (splitParagraphs s) ⟨[], []⟩ ⟨by simp, by simp⟩
    have hn : NonemptySt
        ((splitParagraphs s).foldl (addParagraph MAX_TEXT_LENGTH) ⟨[], []⟩) :=
      foldl_pred NonemptySt (addParagraph MAX_TEXT_LENGTH)
        (fun st p hp => addParagraph_nonempty MAX_TEXT_LENGTH hm st p hp)
        (splitParagraphs s) ⟨[], []⟩ (by intro c hc; simp at hc)
    exact ⟨pushCur_bounded MAX_TEXT_LENGTH _ hb, pushCur_nonempty _ hn⟩

/-- Witness for the amended claim C1 at a concrete non-empty input. -/
theorem splitTextIntoChunks_bounded_nonempty_witness :
    (∀ c ∈ splitTextIntoChunks MAX_TEXT_LENGTH (lit "hi"),
        c.length ≤ MAX_TEXT_LENGTH) ∧
    (∀ c ∈ splitTextIntoChunks MAX_TEXT_LENGTH (lit "hi"), c ≠ []) :=
  splitTextIntoChunks_bounded_nonempty (lit "hi") (by decide)

/-- Counterexample to claim C1 as stated: on the empty input string the
chunker returns a one-element list whose only chunk is the empty string, so
not every returned chunk is non-empty. -/
theorem splitTextIntoChunks_empty_input_cex :
    splitTextIntoChunks MAX_TEXT_LENGTH [] = [[]] ∧
    ¬ (∀ c ∈ splitTextIntoChunks MAX_TEXT_LENGTH [], c ≠ ([] : List Char)) := by
  constructor
  · decide
  · intro h
    exact h [] (by decide) rfl

/-- Witness for claim C2 at a concrete budget and input. -/
theorem splitTextIntoChunks_reconstructs_witness :
    nws (splitTextIntoChunks 1 (lit "a. b")).flatten = nws (lit "a. b") :=
  splitTextIntoChunks_reconstructs 1 (by decide) (lit "a. b")

theorem insertItem_allItems (m : Buckets) (k : List Char) (v : SummarizedContent) :
    (allItems (insertItem m k v)).Perm (allItems m ++ [v]) := by
  induction m with
  | nil => simp [insertItem, allItems]
  | cons e rest ih =>
    obtain ⟨k1, vs⟩ := e
    rw [insertItem]
    by_cases h : k1 = k
    · rw [if_pos h]
      simp only [allItems, List.map_cons, List.flatten_cons, List.append_assoc]
      refine List.Perm.append_left vs ?_
      exact List.Perm.append_right _ (List.Perm.refl [v]) |>.trans
        (List.perm_append_comm)
    · rw [if_neg h]
      simp only [allItems, List.map_cons, List.flatten_cons] at ih ⊢
      have h2 := List.Perm.append_left vs ih
      simpa using h2

theorem foldl_insertItem_allItems (key : SummarizedContent → List Char) :
    ∀ (L : List SummarizedContent) (m : Buckets),
      (allItems (L.foldl (fun m c => insertItem m (key c) c) m)).Perm
        (allItems m ++ L) := by
  intro L
  induction L with
  | nil => simp
  | cons c rest ih =>
    intro m
    rw [List.foldl_cons]
    have h1 := ih (insertItem m (key c) c)
    have h2 := List.Perm.append_right rest (insertItem_allItems m (key c) c)
    have h3 := h1.trans h2
    simpa using h3

theorem bucketGet_insertItem_same (m : Buckets) (k : List Char) (v : SummarizedContent) :
    bucketGet (insertItem m k v) k = bucketGet m k ++ [v] := by
  induction m with
  | nil => simp [insertItem, bucketGet]
  | cons e rest ih =>
    obtain ⟨k1, vs⟩ := e
    rw [insertItem]
    by_cases h : k1 = k
    · rw [if_pos h, bucketGet, if_pos h, bucketGet, if_pos h]
    · rw [if_neg h, bucketGet, if_neg h, bucketGet, if_neg h]
      exact ih

theorem bucketGet_insertItem_other (m : Buckets) (k k2 : List Char)
    (v : SummarizedContent) (hne : k2 ≠ k) :
    bucketGet (insertItem m k2 v) k = bucketGet m k := by
  induction m with
  | nil => simp [insertItem, bucketGet, hne]
  | cons e rest ih =>
    obtain ⟨k1, vs⟩ := e
    rw [insertItem]
    by_cases h : k1 = k2
    · rw [if_pos h, bucketGet, bucketGet]
      have hne2 : ¬k1 = k := by rw [h]; exact hne
      rw [if_neg hne2, if_neg hne2]
    · rw [if_neg h, bucketGet, bucketGet]
      by_cases h2 : k1 = k
      · rw [if_pos h2, if_pos h2]
      · rw [if_neg h2, if_neg h2]
        exact ih

theorem mem_bucketGet_insertItem (m : Buckets) (k k2 : List Char)
    (v x : SummarizedContent) (hx : x ∈ bucketGet m k) :
    x ∈ bucketGet (insertItem m k2 v) k := by
  by_cases h : k2 = k
  · subst h
    rw [bucketGet_insertItem_same]
    exact List.mem_append_left _ hx
  · rw [bucketGet_insertItem_other m k k2 v h]
    exact hx

theorem foldl_insertItem_mem (key : SummarizedContent → List Char) :
    ∀ (L : List SummarizedContent) (m : Buckets) (c : SummarizedContent),
      c ∈ L →
      c ∈ bucketGet (L.foldl (fun m x => insertItem m (key x) x) m) (key c) := by
  intro L
  induction L with
  | nil => intro m c hc; cases hc
  | cons x rest ih =>
    intro m c hc
    rw [List.foldl_cons]
    rcases List.mem_cons.mp hc with h | h
    · subst h
      refine foldl_pred (fun m => c ∈ bucketGet m (key c))
        (fun m x => insertItem m (key x) x)
        (fun m x hm => mem_bucketGet_insertItem m (key c) (key x) x c hm) rest _ ?_
      show c ∈ bucketGet (insertItem m (key c) c) (key c)
      rw [bucketGet_insertItem_same]
      exact List.mem_append_right _ (List.mem_singleton.mpr rfl)
    · exact ih (insertItem m (key x) x) c h

/-- Claim C4: grouping neither loses nor duplicates items — the items of all
tech buckets together with the items of all other buckets are a permutation
of the input — and an item with an absent subcategory lands in the
deterministic fallback bucket of its primary category (`OTHER_TECH` for
TECH, `OTHER_GENERAL` for OTHER); the function is total, so it never
raises. -/
theorem groupContentsByCategory_complete (contents : List SummarizedContent) :
    (allItems (groupContentsByCategory contents).tech ++
      allItems (groupContentsByCategory contents).other).Perm contents ∧
    (∀ c ∈ contents, c.subCategory = none →
      (c.category = ContentCategory.TECH →
        c ∈ bucketGet (groupContentsByCategory contents).tech OTHER_TECH) ∧
      (c.category = ContentCategory.OTHER →
        c ∈ bucketGet (groupContentsByCategory contents).other OTHER_GENERAL)) := by
  constructor
  · have htech := foldl_insertItem_allItems (fun c => subCatOr c.subCategory OTHER_TECH)
      (contents.filter (fun c => c.category = ContentCategory.TECH)) []
    have hother := foldl_insertItem_allItems (fun c => subCatOr c.subCategory OTHER_GENERAL)
      (contents.filter (fun c => c.category = ContentCategory.OTHER)) []
    simp only [allItems, List.map_nil, List.flatten_nil, List.nil_append] at htech hother
    have happ := htech.append hother
    have hperm : ((contents.filter (fun c => c.category = ContentCategory.TECH)) ++
        (contents.filter (fun c => c.category = ContentCategory.OTHER))).Perm contents := by
      have hneg : (fun c : SummarizedContent => decide (c.category = ContentCategory.OTHER))
          = (fun c => !decide (c.category = ContentCategory.TECH)) := by
        funext c
        cases h : c.category <;> simp [h]
      rw [show (contents.filter (fun c => c.category = ContentCategory.OTHER))
            = contents.filter (fun c => !decide (c.category = ContentCategory.TECH)) by
          rw [← hneg]]
      exact List.filter_append_perm _ contents
    exact (happ.trans hperm)
  · intro c hc hnone
    constructor
    · intro hcat
      have hmem : c ∈ contents.filter (fun c => c.category = ContentCategory.TECH) :=
        List.mem_filter.mpr ⟨hc, by simp [hcat]⟩
      have h2 := foldl_insertItem_mem (fun c => subCatOr c.subCategory OTHER_TECH)
        (contents.filter (fun c => c.category = ContentCategory.TECH)) [] c hmem
      simp only [hnone, subCatOr] at h2
      simp only [groupContentsByCategory]
      exact h2
    · intro hcat
      have hmem : c ∈ contents.filter (fun c => c.category = ContentCategory.OTHER) :=
        List.mem_filter.mpr ⟨hc, by simp [hcat]⟩
      have h2 := foldl_insertItem_mem (fun c => subCatOr c.subCategory OTHER_GENERAL)
        (contents.filter (fun c => c.category = ContentCategory.OTHER)) [] c hmem
      simp only [hnone, subCatOr] at h2
      simp only [groupContentsByCategory]
      exact h2

/-- Witness for claim C4 at a concrete input containing an item without a
subcategory. -/
theorem groupContentsByCategory_complete_witness :
    ((allItems (groupContentsByCategory
        [⟨ContentCategory.TECH, none, lit "t"⟩]).tech ++
      allItems (groupContentsByCategory
        [⟨ContentCategory.TECH, none, lit "t"⟩]).other).Perm
      [⟨ContentCategory.TECH, none, lit "t"⟩]) ∧
    (⟨ContentCategory.TECH, none, lit "t"⟩ : SummarizedContent) ∈
      bucketGet (groupContentsByCategory
        [⟨ContentCategory.TECH, none, lit "t"⟩]).tech OTHER_TECH :=
  ⟨(groupContentsByCategory_complete [⟨ContentCategory.TECH, none, lit "t"⟩]).1,
   ((groupContentsByCategory_complete [⟨ContentCategory.TECH, none, lit "t"⟩]).2
      ⟨ContentCategory.TECH, none, lit "t"⟩ (by decide) rfl).1 rfl⟩

theorem openingScript_ne_nil : openingScript ≠ [] := by decide

theorem allItems_length (m : Buckets) : (allItems m).length = sumCounts m := by
  induction m with
  | nil => rfl
  | cons e rest ih => simp [allItems, sumCounts] at ih ⊢; omega

/-- Claim C3: whatever the outcomes of the narration calls (`narr`), the
trend call (`stat`) and whatever the clean-up pass does (`post`), the
assembled script is non-empty and contains the fixed opening and the fixed
closing boilerplate verbatim. -/
theorem createPodcastScript_boilerplate (narr : NarrOracle)
    (stat : Option (List Char)) (post : List Char → List Char)
    (g : GroupedContents) :
    createPodcastScript narr stat post g ≠ [] ∧
    (∃ u v, createPodcastScript narr stat post g = u ++ openingScript ++ v) ∧
    (∃ u v, createPodcastScript narr stat post g = u ++ conclusionScript ++ v) := by
  refine ⟨?_, ?_, ?_⟩
  · intro h
    rw [createPodcastScript] at h
    rcases List.append_eq_nil.mp
      (List.append_eq_nil.mp (List.append_eq_nil.mp
        (List.append_eq_nil.mp h).1).1).1 with ⟨h1, _⟩
    exact openingScript_ne_nil h1
  · exact ⟨[], techSectionOf narr post g ++ otherSectionOf narr post g ++
      generateStatisticalSummary stat (allItems g.tech) (allItems g.other) ++
      conclusionScript, by rw [createPodcastScript]; simp⟩
  · exact ⟨openingScript ++ techSectionOf narr post g ++
      otherSectionOf narr post g ++
      generateStatisticalSummary stat (allItems g.tech) (allItems g.other), [],
      by rw [createPodcastScript]; simp⟩

/-- Claim C9 (amended): when both primary categories hold zero items, the
assembled script is exactly the opening boilerplate followed by the closing
boilerplate — the statistical summary contributes the empty string and no
neutral filler sentence is inserted. -/
theorem createPodcastScript_no_items (narr : NarrOracle)
    (stat : Option (List Char)) (post : List Char → List Char)
    (g : GroupedContents)
    (htech : sumCounts g.tech = 0) (hother : sumCounts g.other = 0) :
    createPodcastScript narr stat post g = openingScript ++ conclusionScript := by
  rw [createPodcastScript, techSectionOf, otherSectionOf,
    if_neg (by omega), if_neg (by omega), generateStatisticalSummary.eq_def,
    if_pos ⟨by rw [allItems_length]; omega, by rw [allItems_length]; omega⟩]
  simp

/-- Witness for the amended claim C9 at a concrete empty grouping (with a
succeeding trend oracle, showing the summary is dropped regardless). -/
theorem createPodcastScript_no_items_witness :
    createPodcastScript (fun _ _ _ => none) (some (lit "傾向まとめ"))
      (fun t => t) ⟨[], []⟩ = openingScript ++ conclusionScript :=
  createPodcastScript_no_items (fun _ _ _ => none) (some (lit "傾向まとめ"))
    (fun t => t) ⟨[], []⟩ rfl rfl

set_option maxRecDepth 8000 in
/-- Counterexample to claim C9 as stated: with zero items in both categories
the assembled script is exactly opening ++ closing — no neutral
"no notable items this period" sentence appears between them. -/
theorem createPodcastScript_no_items_cex :
    createPodcastScript (fun _ _ _ => none) none (fun t => t) ⟨[], []⟩ =
      openingScript ++ conclusionScript := by
  decide

theorem insertByCountDesc_mem (e x : List Char × List SummarizedContent) :
    ∀ L : Buckets, x ∈ insertByCountDesc e L ↔ x = e ∨ x ∈ L := by
  intro L
  induction L with
  | nil => simp [insertByCountDesc]
  | cons f rest ih =>
    rw [insertByCountDesc]
    by_cases h : f.2.length < e.2.length
    · rw [if_pos h]
      simp [List.mem_cons]
    · rw [if_neg h]
      simp [List.mem_cons, ih]
      tauto

theorem insertByCountDesc_length (e : List Char × List SummarizedContent) :
    ∀ L : Buckets, (insertByCountDesc e L).length = L.length + 1 := by
  intro L
  induction L with
  | nil => rfl
  | cons f rest ih =>
    rw [insertByCountDesc]
    by_cases h : f.2.length < e.2.length
    · rw [if_pos h]
      simp
    · rw [if_neg h]
      simp [ih]

theorem sortByCountDesc_length (m : Buckets) :
    (sortByCountDesc m).length = m.length := by
  induction m with
  | nil => rfl
  | cons e rest ih => rw [sortByCountDesc, insertByCountDesc_length, ih, List.length_cons]

theorem insertByCountDesc_pairwise (e : List Char × List SummarizedContent)
    (L : Buckets)
    (h : L.Pairwise (fun a b => b.2.length ≤ a.2.length)) :
    (insertByCountDesc e L).Pairwise (fun a b => b.2.length ≤ a.2.length) := by
  induction L with
  | nil => simp [insertByCountDesc]
  | cons f rest ih =>
    rw [List.pairwise_cons] at h
    rw [insertByCountDesc]
    by_cases hc : f.2.length < e.2.length
    · rw [if_pos hc]
      refine List.pairwise_cons.mpr ⟨?_, List.pairwise_cons.mpr ⟨h.1, h.2⟩⟩
      intro x hx
      rcases List.mem_cons.mp hx with h2 | h2
      · subst h2; omega
      · have := h.1 x h2; omega
    · rw [if_neg hc]
      refine List.pairwise_cons.mpr ⟨?_, ih h.2⟩
      intro x hx
      rcases (insertByCountDesc_mem e x rest).mp hx with h2 | h2
      · subst h2; omega
      · exact h.1 x h2

theorem sortByCountDesc_pairwise (m : Buckets) :
    (sortByCountDesc m).Pairwise (fun a b => b.2.length ≤ a.2.length) := by
  induction m with
  | nil => simp [sortByCountDesc]
  | cons e rest ih => exact insertByCountDesc_pairwise e _ ih

theorem categorySections_individual (m : Buckets) :
    (categorySections m).individual =
      (sortByCountDesc m).filter
        (fun e => !(isSmallIn (sortByCountDesc m).length e)) := rfl

theorem categorySections_merged (m : Buckets) :
    (categorySections m).merged =
      (match (sortByCountDesc m).filter
          (fun e => isSmallIn (sortByCountDesc m).length e) with
      | [] => none
      | _ =>
        if ((((sortByCountDesc m).filter
              (fun e => isSmallIn (sortByCountDesc m).length e)).map
                (fun e => e.2)).flatten).isEmpty
        then none
        else some ((((sortByCountDesc m).filter
              (fun e => isSmallIn (sortByCountDesc m).length e)).map
                (fun e => e.2)).flatten) : Option (List SummarizedContent)) := rfl

/-- Claim C5 (amended): within a primary category the individually narrated
subcategory buckets appear in descending order of item count; when the
category has more than one subcategory, no bucket with at most two items is
narrated individually and every item of such a bucket lands in the single
merged "other" bucket, narrated once; but when the category has exactly one
subcategory, that bucket is narrated individually whatever its size and
nothing is merged. -/
theorem categorySections_plan (m : Buckets) :
    (((categorySections m).individual.map (fun e => e.2.length)).Pairwise
        (fun a b => b ≤ a)) ∧
    (1 < m.length → ∀ e ∈ (categorySections m).individual, 2 < e.2.length) ∧
    (1 < m.length → ∀ e ∈ sortByCountDesc m, e.2.length ≤ 2 →
        ∀ x ∈ e.2, ∃ l, (categorySections m).merged = some l ∧ x ∈ l) ∧
    (m.length ≤ 1 → (categorySections m).individual = sortByCountDesc m ∧
        (categorySections m).merged = none) := by
  have hn : (sortByCountDesc m).length = m.length := sortByCountDesc_length m
  refine ⟨?_, ?_, ?_, ?_⟩
  · rw [categorySections_individual]
    rw [List.pairwise_map]
    exact (sortByCountDesc_pairwise m).sublist (List.filter_sublist _)
  · intro hm e he
    rw [categorySections_individual] at he
    have h2 := List.of_mem_filter he
    simp only [isSmallIn, hn] at h2
    simp at h2
    omega
  · intro hm e he hlen x hx
    have hsmall : e ∈ (sortByCountDesc m).filter
        (fun e => isSmallIn (sortByCountDesc m).length e) :=
      List.mem_filter.mpr ⟨he, by simp [isSmallIn, hn]; omega⟩
    have hxc : x ∈ (((sortByCountDesc m).filter
        (fun e => isSmallIn (sortByCountDesc m).length e)).map
          (fun e => e.2)).flatten :=
      List.mem_flatten.mpr ⟨e.2, List.mem_map_of_mem _ hsmall, hx⟩
    rw [categorySections_merged]
    cases hsm : (sortByCountDesc m).filter
        (fun e => isSmallIn (sortByCountDesc m).length e) with
    | nil => rw [hsm] at hsmall; cases hsmall
    | cons s0 srest =>
      rw [hsm] at hxc
      have hne : (((s0 :: srest).map (fun e => e.2)).flatten) ≠ [] :=
        List.ne_nil_of_mem hxc
      refine ⟨((s0 :: srest).map (fun e => e.2)).flatten, ?_, hxc⟩
      show (if (((s0 :: srest).map (fun e => e.2)).flatten).isEmpty = true
        then none
        else some (((s0 :: srest).map (fun e => e.2)).flatten)) = some _
      have hEm : (((s0 :: srest).map (fun e => e.2)).flatten).isEmpty = false := by
        cases hq : (((s0 :: srest).map (fun e => e.2)).flatten) with
        | nil => exact absurd hq hne
        | cons a as => rfl
      rw [if_neg (by rw [hEm]; exact Bool.false_ne_true)]
  · intro hm
    have hfalse : ∀ e ∈ sortByCountDesc m,
        isSmallIn (sortByCountDesc m).length e = false := by
      intro e he
      simp [isSmallIn, hn]
      omega
    constructor
    · rw [categorySections_individual]
      apply List.filter_eq_self.mpr
      intro a ha
      simp [hfalse a ha]
    · rw [categorySections_merged]
      have hnil : (sortByCountDesc m).filter
          (fun e => isSmallIn (sortByCountDesc m).length e) = [] := by
        apply List.filter_eq_nil_iff.mpr
        intro a ha
        simp [hfalse a ha]
      rw [hnil]

/-- Counterexample to claim C5 as stated: a primary category with a single
subcategory bucket holding one item (thus at most two) is narrated
individually and nothing is merged — because the code only skips small
buckets when the category has more than one subcategory. -/
theorem categorySections_single_small_cex :
    (categorySections [(lit "AI_ML",
        [⟨ContentCategory.TECH, some (lit "AI_ML"), lit "s"⟩])]).individual =
      [(lit "AI_ML", [⟨ContentCategory.TECH, some (lit "AI_ML"), lit "s"⟩])] ∧
    (categorySections [(lit "AI_ML",
        [⟨ContentCategory.TECH, some (lit "AI_ML"), lit "s"⟩])]).merged = none := by
  decide

/-- Witness for the amended claim C5: with two buckets of three and one
items, the single item of the small bucket is carried by the merged
section. -/
theorem categorySections_plan_witness :
    ∃ l, (categorySections [
        (lit "A", [⟨ContentCategory.TECH, none, lit "a"⟩,
          ⟨ContentCategory.TECH, none, lit "b"⟩,
          ⟨ContentCategory.TECH, none, lit "c"⟩]),
        (lit "B", [⟨ContentCategory.TECH, none, lit "d"⟩])]).merged = some l ∧
      (⟨ContentCategory.TECH, none, lit "d"⟩ : SummarizedContent) ∈ l :=
  (categorySections_plan [
        (lit "A", [⟨ContentCategory.TECH, none, lit "a"⟩,
          ⟨ContentCategory.TECH, none, lit "b"⟩,
          ⟨ContentCategory.TECH, none, lit "c"⟩]),
        (lit "B", [⟨ContentCategory.TECH, none, lit "d"⟩])]).2.2.1
    (by decide)
    (lit "B", [⟨ContentCategory.TECH, none, lit "d"⟩])
    (by decide) (by decide)
    ⟨ContentCategory.TECH, none, lit "d"⟩ (by decide)

theorem joinSep_mem_split (sep : List Char) :
    ∀ (L : List (List Char)) (x : List Char), x ∈ L →
      ∃ u v, joinSep sep L = u ++ x ++ v := by
  intro L
  induction L with
  | nil => intro x hx; cases hx
  | cons a rest ih =>
    intro x hx
    cases rest with
    | nil =>
      rw [List.mem_singleton] at hx
      subst hx
      exact ⟨[], [], by simp [joinSep]⟩
    | cons b rest2 =>
      rcases List.mem_cons.mp hx with h | h
      · subst h
        exact ⟨[], sep ++ joinSep sep (b :: rest2), by simp [joinSep]⟩
      · obtain ⟨u, v, huv⟩ := ih x h
        exact ⟨a ++ sep ++ u, v, by rw [joinSep, huv]; simp⟩

/-- Claim C6: `generateCombinedSection` is total (chunk failure never
escapes), and each chunk contributes locally to the joined result — a chunk
whose narration call succeeded contributes its trimmed response text and a
chunk whose retries were exhausted contributes exactly the fixed fallback
sentence, so the failure of one chunk leaves every other chunk's text in the
result. -/
theorem generateCombinedSection_chunk_local (narr : NarrOracle)
    (contents : List SummarizedContent) (categoryName : List Char) :
    ∀ ic ∈ (splitContentsIntoChunks contents).enum,
      (∀ t, narr ic.2 categoryName (ic.1 == 0) = some t →
        ∃ u v, generateCombinedSection narr contents categoryName =
          u ++ jsTrim t ++ v) ∧
      (narr ic.2 categoryName (ic.1 == 0) = none →
        ∃ u v, generateCombinedSection narr contents categoryName =
          u ++ chunkFallback ++ v) := by
  intro ic hic
  constructor
  · intro t ht
    have hmem : jsTrim t ∈ ((splitContentsIntoChunks contents).enum.map (fun ic =>
        match narr ic.2 categoryName (ic.1 == 0) with
        | some t => jsTrim t
        | none => chunkFallback)) := by
      refine List.mem_map.mpr ⟨ic, hic, ?_⟩
      rw [ht]
    exact joinSep_mem_split (lit "\n\n") _ (jsTrim t) hmem
  · intro ht
    have hmem : chunkFallback ∈ ((splitContentsIntoChunks contents).enum.map (fun ic =>
        match narr ic.2 categoryName (ic.1 == 0) with
        | some t => jsTrim t
        | none => chunkFallback)) := by
      refine List.mem_map.mpr ⟨ic, hic, ?_⟩
      rw [ht]
    exact joinSep_mem_split (lit "\n\n") _ chunkFallback hmem

/-- Witness for claim C6: the failed first chunk contributes the fallback
sentence to the combined section. -/
theorem generateCombinedSection_chunk_local_witness :
    ∃ u v, generateCombinedSection narrW itemsW (lit "テスト") =
      u ++ chunkFallback ++ v :=
  ((generateCombinedSection_chunk_local narrW itemsW (lit "テスト"))
      (0, [itemW, itemW, itemW, itemW, itemW])
      (by simp [itemsW, splitContentsIntoChunks, chunksEvery]; decide)).2
    (by rfl)

theorem runChunks_ok (synthOk : Nat → Bool) (base : List Char) :
    ∀ (chunks : List (List Char)) (i : Nat) (fs : FsState),
      (∀ j, j < chunks.length → synthOk (i + j) = true) →
      runChunks synthOk base i chunks fs =
        (Except.ok ((List.range chunks.length).map
            (fun j => tempChunkPath (i + j) base)),
         ⟨fs.files ++ (List.range chunks.length).map
            (fun j => tempChunkPath (i + j) base)⟩) := by
  intro chunks
  induction chunks with
  | nil =>
    intro i fs _
    simp [runChunks]
  | cons c rest ih =>
    intro i fs h
    rw [runChunks, if_pos (by have := h 0 (by simp); simpa using this)]
    rw [ih (i + 1) (writeFile fs (tempChunkPath i base))
      (fun j hj => by
        have := h (j + 1) (by simp; omega)
        have he : i + (j + 1) = i + 1 + j := by omega
        rw [he] at this
        exact this)]
    have hrange : (List.range (rest.length + 1)).map (fun j => tempChunkPath (i + j) base) =
        tempChunkPath i base ::
          (List.range rest.length).map (fun j => tempChunkPath (i + 1 + j) base) := by
      rw [List.range_succ_eq_map]
      simp only [List.map_cons, List.map_map]
      refine congrArg₂ List.cons (by rw [Nat.add_zero]) ?_
      refine List.map_congr_left ?_
      intro j hj
      simp [Function.comp]
      refine congrArg₂ tempChunkPath (by omega) rfl
    simp only [List.length_cons, hrange, writeFile]
    simp [Function.comp, Nat.add_comm, Nat.add_assoc, Nat.add_left_comm]

theorem runChunks_fail (synthOk : Nat → Bool) (base : List Char) :
    ∀ (chunks : List (List Char)) (k i : Nat) (fs : FsState),
      k < chunks.length → synthOk (i + k) = false →
      (∀ j, j < k → synthOk (i + j) = true) →
      runChunks synthOk base i chunks fs =
        (Except.error (),
         ⟨fs.files ++ (List.range k).map (fun j => tempChunkPath (i + j) base)⟩) := by
  intro chunks
  induction chunks with
  | nil =>
    intro k i fs hk
    simp at hk
  | cons c rest ih =>
    intro k i fs hk hfail hok
    cases k with
    | zero =>
      rw [runChunks, if_neg (by simpa using hfail)]
      simp
    | succ k2 =>
      rw [runChunks, if_pos (by have := hok 0 (by omega); simpa using this)]
      rw [ih k2 (i + 1) (writeFile fs (tempChunkPath i base))
        (by simp at hk; omega)
        (by have := hfail; have he : i + (k2 + 1) = i + 1 + k2 := by omega;
            rw [he] at this; exact this)
        (fun j hj => by
          have := hok (j + 1) (by omega)
          have he : i + (j + 1) = i + 1 + j := by omega
          rw [he] at this
          exact this)]
      have hrange : (List.range (k2 + 1)).map (fun j => tempChunkPath (i + j) base) =
          tempChunkPath i base ::
            (List.range k2).map (fun j => tempChunkPath (i + 1 + j) base) := by
        rw [List.range_succ_eq_map]
        simp only [List.map_cons, List.map_map]
        refine congrArg₂ List.cons (by rw [Nat.add_zero]) ?_
        refine List.map_congr_left ?_
        intro j hj
        simp [Function.comp]
        refine congrArg₂ tempChunkPath (by omega) rfl
      simp [hrange, writeFile]

theorem foldl_unlink (out : List Char) :
    ∀ (ts : List (List Char)) (pre : List (List Char)),
      (∀ t ∈ ts, t ∉ pre ∧ t ≠ out) →
      ts.foldl unlinkFile ⟨pre ++ ts ++ [out]⟩ = (⟨pre ++ [out]⟩ : FsState) := by
  intro ts
  induction ts with
  | nil => intro pre _; simp
  | cons t rest ih =>
    intro pre h
    rw [List.foldl_cons]
    have ht := h t (by simp)
    have hstep : unlinkFile ⟨pre ++ t :: rest ++ [out]⟩ t =
        (⟨pre ++ rest ++ [out]⟩ : FsState) := by
      rw [unlinkFile]
      refine congrArg FsState.mk ?_
      rw [show pre ++ t :: rest ++ [out] = pre ++ (t :: (rest ++ [out])) by simp]
      rw [List.erase_append_right _ ht.1, List.erase_cons_head]
      simp
    rw [hstep]
    exact ih pre (fun x hx => h x (by simp [hx]))

/-- Claim C7 (amended): on the chunked synthesis path the temp artifacts are
deleted only on the fully successful path.  When every chunk synthesizes and
the merge succeeds the call returns the output path and the file system ends
as the starting files plus the output artifact (all temps removed); when
chunk `k`'s retries are exhausted the call throws and the temp artifacts of
the `k` earlier chunks remain on disk; when the merge fails the call throws
and all temp artifacts remain.  `hfresh` says the collision-free temp names
are not already taken and differ from the output path. -/
theorem synthesizeChunked_cleanup (synthOk : Nat → Bool) (mergeOk : Bool)
    (base out : List Char) (chunks : List (List Char)) (fs : FsState)
    (hfresh : ∀ i, tempChunkPath i base ∉ fs.files ∧ tempChunkPath i base ≠ out) :
    ((∀ j, j < chunks.length → synthOk j = true) → mergeOk = true →
      synthesizeChunked synthOk mergeOk base chunks out fs =
        (Except.ok out, ⟨fs.files ++ [out]⟩)) ∧
    (∀ k, k < chunks.length → synthOk k = false →
      (∀ j, j < k → synthOk j = true) →
      synthesizeChunked synthOk mergeOk base chunks out fs =
        (Except.error (),
         ⟨fs.files ++ (List.range k).map (fun j => tempChunkPath j base)⟩)) ∧
    ((∀ j, j < chunks.length → synthOk j = true) → mergeOk = false →
      synthesizeChunked synthOk mergeOk base chunks out fs =
        (Except.error (),
         ⟨fs.files ++ (List.range chunks.length).map
            (fun j => tempChunkPath j base)⟩)) := by
  have hok0 : (∀ j, j < chunks.length → synthOk j = true) →
      ∀ j, j < chunks.length → synthOk (0 + j) = true :=
    fun h j hj => by rw [Nat.zero_add]; exact h j hj
  refine ⟨?_, ?_, ?_⟩
  · intro hall hmerge
    unfold synthesizeChunked
    rw [runChunks_ok synthOk base chunks 0 fs (hok0 hall)]
    simp only [hmerge, if_true, writeFile]
    rw [foldl_unlink out _ fs.files
      (by intro t ht
          obtain ⟨j, hj, hje⟩ := List.mem_map.mp ht
          rw [← hje]
          exact hfresh (0 + j))]
  · intro k hk hfail hok
    unfold synthesizeChunked
    rw [runChunks_fail synthOk base chunks k 0 fs hk
      (by rw [Nat.zero_add]; exact hfail)
      (fun j hj => by rw [Nat.zero_add]; exact hok j hj)]
    simp [Nat.zero_add]
  · intro hall hmerge
    unfold synthesizeChunked
    rw [runChunks_ok synthOk base chunks 0 fs (hok0 hall)]
    simp [hmerge, Nat.zero_add]

theorem tempChunkPath_expand (i : Nat) (base : List Char) :
    tempChunkPath i base =
      't' :: (lit "emp_chunk_" ++ (natStr i ++ ('_' :: base))) := by
  rw [tempChunkPath]
  have h : lit "temp_chunk_" = 't' :: lit "emp_chunk_" := by decide
  have h2 : lit "_" = ['_'] := by decide
  rw [h, h2]
  simp

/-- Witness for the amended claim C7 on the fully successful path: two
chunks, both synthesized, merge succeeds — only the output file remains. -/
theorem synthesizeChunked_cleanup_witness :
    synthesizeChunked (fun _ => true) true (lit "p.mp3") [lit "x", lit "y"]
      (lit "o.mp3") ⟨[]⟩ = (Except.ok (lit "o.mp3"), ⟨[lit "o.mp3"]⟩) :=
  (synthesizeChunked_cleanup (fun _ => true) true (lit "p.mp3") (lit "o.mp3")
      [lit "x", lit "y"] ⟨[]⟩
      (fun i => ⟨by simp, by
        rw [tempChunkPath_expand]
        intro hcontra
        have ho : lit "o.mp3" = 'o' :: lit ".mp3" := by decide
        rw [ho] at hcontra
        injection hcontra with h1 h2
        exact absurd h1 (by decide)⟩)).1
    (fun j hj => rfl) rfl

set_option maxRecDepth 4000 in
/-- Counterexample to claim C7 as stated: three chunks, the second chunk's
synthesis exhausts its retries — the call throws and the temp artifact
written for the first chunk is still on disk at the end of the call. -/
theorem synthesizeChunked_leftover_cex :
    (synthesizeChunked (fun i => i == 0) true (lit "p.mp3")
        [lit "a", lit "b", lit "c"] (lit "o.mp3") ⟨[]⟩).1 = Except.error () ∧
    (synthesizeChunked (fun i => i == 0) true (lit "p.mp3")
        [lit "a", lit "b", lit "c"] (lit "o.mp3") ⟨[]⟩).2.files =
      [tempChunkPath 0 (lit "p.mp3")] := by
  exact ⟨rfl, rfl⟩

theorem readBytes_writeBytes_same (fs : FileMap) (p : List Char) (v : List Nat) :
    readBytes (writeBytes fs p v) p = some v := by
  induction fs with
  | nil => simp [writeBytes, readBytes]
  | cons e rest ih =>
    obtain ⟨q, w⟩ := e
    rw [writeBytes]
    by_cases h : q = p
    · rw [if_pos h, readBytes, if_pos h]
    · rw [if_neg h, readBytes, if_neg h]
      exact ih

/-- Claim C8: with exactly one readable input the concatenation copies it to
the output path byte-identically and returns the output path; with zero
inputs it raises the no-input error and leaves the file map untouched (no
output produced). -/
theorem mergeAudioFiles_identity (ffmpeg : List (List Char) → Option (List Nat))
    (x out : List Char) (fs : FileMap) (v : List Nat)
    (hx : readBytes fs x = some v) :
    (mergeAudioFiles ffmpeg [x] out fs =
        (Except.ok out, writeBytes fs out v) ∧
      readBytes (mergeAudioFiles ffmpeg [x] out fs).2 out = some v) ∧
    mergeAudioFiles ffmpeg [] out fs = (Except.error MergeError.noInput, fs) := by
  have h1 : mergeAudioFiles ffmpeg [x] out fs =
      (Except.ok out, writeBytes fs out v) := by
    unfold mergeAudioFiles
    rw [if_pos (by simp)]
    show (match readBytes fs x with
      | some v => ((Except.ok out : Except MergeError (List Char)), writeBytes fs out v)
      | none => (Except.error MergeError.copyFailed, fs)) =
        (Except.ok out, writeBytes fs out v)
    rw [hx]
  refine ⟨⟨h1, ?_⟩, by unfold mergeAudioFiles; rw [if_pos (by simp)]⟩
  rw [h1]
  exact readBytes_writeBytes_same fs out v

/-- Witness for claim C8 at a one-file map. -/
theorem mergeAudioFiles_identity_witness :
    (mergeAudioFiles (fun _ => none) [lit "a.mp3"] (lit "o.mp3")
        [(lit "a.mp3", [1, 2, 3])] =
      (Except.ok (lit "o.mp3"),
        writeBytes [(lit "a.mp3", [1, 2, 3])] (lit "o.mp3") [1, 2, 3]) ∧
      readBytes (mergeAudioFiles (fun _ => none) [lit "a.mp3"] (lit "o.mp3")
        [(lit "a.mp3", [1, 2, 3])]).2 (lit "o.mp3") = some [1, 2, 3]) ∧
    mergeAudioFiles (fun _ => none) [] (lit "o.mp3")
        [(lit "a.mp3", [1, 2, 3])] =
      (Except.error MergeError.noInput, [(lit "a.mp3", [1, 2, 3])]) :=
  mergeAudioFiles_identity (fun _ => none) (lit "a.mp3") (lit "o.mp3")
    [(lit "a.mp3", [1, 2, 3])] [1, 2, 3] (by decide)

example : getAudioDuration (Except.ok (lit "N/A")) = JsNum.nan := by decide

theorem dropWhile_space_of_nws_nil (l : List Char) (h : nws l = []) :
    l.dropWhile isSpaceChar = [] := by
  induction l with
  | nil => rfl
  | cons c rest ih =>
    rw [nws_cons] at h
    by_cases hc : isSpaceChar c = true
    · rw [if_pos hc] at h
      rw [List.dropWhile_cons, if_pos hc]
      exact ih h
    · rw [if_neg hc] at h
      cases h

theorem jsTrim_of_nws_nil (l : List Char) (h : nws l = []) : jsTrim l = [] := by
  rw [jsTrim, dropWhile_space_of_nws_nil l h]
  rfl

/-- Claim C10 (amended): the duration probe is total and returns 0 exactly
when the ffprobe command itself fails; when the command succeeds its trimmed
output is parsed with `parseFloat`, and in particular a success whose output
carries no duration (whitespace-only/empty stdout) yields NaN, not 0. -/
theorem getAudioDuration_behaviour (probe : Except Unit (List Char)) :
    (∀ e, probe = Except.error e → getAudioDuration probe = JsNum.val 0) ∧
    (∀ s, probe = Except.ok s →
      getAudioDuration probe = parseFloat (jsTrim s)) ∧
    (∀ s, probe = Except.ok s → nws s = [] →
      getAudioDuration probe = JsNum.nan) := by
  refine ⟨?_, ?_, ?_⟩
  · intro e he
    rw [he]
    rfl
  · intro s hs
    rw [hs]
    rfl
  · intro s hs hnws
    rw [hs]
    show parseFloat (jsTrim s) = JsNum.nan
    rw [jsTrim_of_nws_nil s hnws]
    rfl

/-- Witness for the amended claim C10: a successful probe with
whitespace-only output yields NaN. -/
theorem getAudioDuration_behaviour_witness :
    getAudioDuration (Except.ok (lit "  ")) = JsNum.nan :=
  (getAudioDuration_behaviour (Except.ok (lit "  "))).2.2 (lit "  ") rfl
    (by decide)

/-- Counterexample to claim C10 as stated: when ffprobe succeeds but prints
no duration (empty output), the function returns NaN, not 0. -/
theorem getAudioDuration_empty_output_cex :
    getAudioDuration (Except.ok []) = JsNum.nan ∧ JsNum.nan ≠ JsNum.val 0 := by
  exact ⟨rfl, by decide⟩
